import Mathlib

/-!
Verification of the sprite-extraction and background-matting pipeline of
`story_pose_generator.py` (class `StoryPoseGenerator`).

Shallow embedding conventions:
* An RGBA image is a list of rows of `Pixel`s (8-bit channels as `ℕ`).
  The pipeline always runs on RGBA buffers (`Image.open(...).convert("RGBA")`
  in `process_sprite_sheet` / `process_single_sprite`), so the model fixes
  four channels.
* numpy float32/float64 arithmetic is modelled exactly over `ℚ`.
* Intermediate arrays (grayscale, masks, alpha maps) are modelled as
  functions `ℕ → ℕ → _` read at in-bounds coordinates only.
* The two `cv2.GaussianBlur` calls use 3×3 separable kernels whose
  coefficients are transcendental reals computed by OpenCV; they are
  modelled as a parameter `(a, b) : ℚ × ℚ` (side taps / center tap of the
  normalized separable kernel, so `2a + b = 1`), with REFLECT_101 borders.
* `cv2.floodFill` (default flags: 4-connectivity, loDiff = upDiff = 0) is
  modelled as an iterated one-step closure over the grid, run `h*w` times.
-/

/-- Pixel with four 8-bit channels, stored as naturals. -/
structure Pixel where
  r : ℕ
  g : ℕ
  b : ℕ
  a : ℕ
deriving DecidableEq

/-- An RGBA image: a list of rows of pixels. -/
abbrev Image := List (List Pixel)

/-- Default pixel used for out-of-bounds reads (never read in-bounds). -/
def pxDefault : Pixel := ⟨0, 0, 0, 0⟩

/-- Number of rows of the buffer (`image_array.shape[0]`). -/
def height (img : Image) : ℕ := img.length

/-- Number of columns of the buffer (`image_array.shape[1]`). -/
def width (img : Image) : ℕ := (img.getD 0 []).length

/-- Pixel at row `y`, column `x`. -/
def pixAt (img : Image) (y x : ℕ) : Pixel := (img.getD y []).getD x pxDefault

/-- Alpha channel at row `y`, column `x` (`image_array[y, x, 3]`). -/
def alphaAt (img : Image) (y x : ℕ) : ℕ := (pixAt img y x).a

/-- Well-formed RGBA buffer: positive dimensions, rectangular rows, and
8-bit channel values. -/
def WellFormed (img : Image) : Prop :=
  0 < height img ∧ 0 < width img ∧
    ∀ row ∈ img, row.length = width img ∧
      ∀ px ∈ row, px.r ≤ 255 ∧ px.g ≤ 255 ∧ px.b ≤ 255 ∧ px.a ≤ 255

instance (img : Image) : Decidable (WellFormed img) := by
  unfold WellFormed; infer_instance

/-- Row-major list of all coordinates `(y, x)` of an `h × w` grid. -/
def posList (h w : ℕ) : List (ℕ × ℕ) :=
  (List.range h).flatMap fun y => (List.range w).map fun x => (y, x)

theorem mem_posList {h w : ℕ} {p : ℕ × ℕ} :
    p ∈ posList h w ↔ p.1 < h ∧ p.2 < w := by
  cases p with
  | mk y x =>
    simp only [posList, List.mem_flatMap, List.mem_map, List.mem_range]
    constructor
    · rintro ⟨y', hy', x', hx', h⟩
      cases h; exact ⟨hy', hx'⟩
    · rintro ⟨hy, hx⟩
      exact ⟨y, hy, x, hx, rfl⟩

/-- Total alpha over the buffer; `np.mean(alpha) < 240` is modelled as
`sumAlpha img < 240 * (h * w)`. -/
def sumAlpha (img : Image) : ℕ :=
  (img.map fun row => (row.map Pixel.a).sum).sum

/-- numpy "clip(v, lo, hi)". -/
def clipQ (v lo hi : ℚ) : ℚ := min hi (max lo v)

/-- Denominator floor of the decontamination division
(`np.maximum(alpha_channel, 0.01)`, line 114). -/
def deconDenominator (a : ℚ) : ℚ := max a (1/100)

/-- Per-channel color recovery of `decontaminate_edges` (lines 111-118):
`np.clip((channel - 255 * (1 - alpha)) / np.maximum(alpha, 0.01), 0, 255)`. -/
def deconChannel (a c : ℚ) : ℚ :=
  clipQ ((c - 255 * (1 - a)) / deconDenominator a) 0 255

/-- Semi-transparent band of `decontaminate_edges` (line 100):
`(alpha_channel > 0.1) & (alpha_channel < 0.95)`. -/
def semiBand (a : ℚ) : Prop := 1/10 < a ∧ a < 19/20

instance (a : ℚ) : Decidable (semiBand a) := by
  unfold semiBand; infer_instance

/-- Embedding of `StoryPoseGenerator.decontaminate_edges` (lines 87-122) on
an `h × w` RGB float array and alpha array: if any pixel is in the
semi-transparent band (`np.any(semi_transparent_mask)`, line 102), every
in-band pixel's three channels are recovered by `deconChannel` (the
`np.where` of lines 111-119, applied for each channel `c in range 3`);
all other pixels pass through. -/
def decontaminate_edges (h w : ℕ) (rgb : ℕ → ℕ → ℚ × ℚ × ℚ)
    (alpha : ℕ → ℕ → ℚ) : ℕ → ℕ → ℚ × ℚ × ℚ :=
  if (posList h w).any (fun p => decide (semiBand (alpha p.1 p.2))) then
    fun y x =>
      if semiBand (alpha y x) then
        (deconChannel (alpha y x) (rgb y x).1,
         deconChannel (alpha y x) (rgb y x).2.1,
         deconChannel (alpha y x) (rgb y x).2.2)
      else rgb y x
  else rgb

/-- C2: a pixel whose alpha lies strictly between 0.1 and 0.95 has each of
its three color channels `c` replaced by
`clip((c - 255*(1-a)) / max(a, 0.01), 0, 255)`; a pixel whose alpha lies
outside that open band keeps all three channels unchanged. -/
theorem C2_decontamination_band (h w : ℕ) (rgb : ℕ → ℕ → ℚ × ℚ × ℚ)
    (alpha : ℕ → ℕ → ℚ) (y x : ℕ) (hy : y < h) (hx : x < w) :
    (semiBand (alpha y x) →
      decontaminate_edges h w rgb alpha y x =
        (deconChannel (alpha y x) (rgb y x).1,
         deconChannel (alpha y x) (rgb y x).2.1,
         deconChannel (alpha y x) (rgb y x).2.2)) ∧
    (¬ semiBand (alpha y x) →
      decontaminate_edges h w rgb alpha y x = rgb y x) := by
  constructor
  · intro hband
    have hany : (posList h w).any
        (fun p => decide (semiBand (alpha p.1 p.2))) = true := by
      rw [List.any_eq_true]
      exact ⟨(y, x), mem_posList.2 ⟨hy, hx⟩, by simpa using hband⟩
    rw [decontaminate_edges, if_pos hany, if_pos hband]
  · intro hband
    rw [decontaminate_edges]
    by_cases hany :
        (posList h w).any (fun p => decide (semiBand (alpha p.1 p.2))) = true
    · rw [if_pos hany, if_neg hband]
    · rw [if_neg hany]

/-- Witness for C2 at a concrete in-band pixel. -/
theorem C2_decontamination_band_witness :
    (0 : ℕ) < 1 ∧ semiBand ((1 : ℚ)/2) ∧
      decontaminate_edges 1 1 (fun _ _ => ((100 : ℚ), 100, 100))
          (fun _ _ => (1 : ℚ)/2) 0 0 =
        (deconChannel (1/2) 100, deconChannel (1/2) 100,
         deconChannel (1/2) 100) := by
  refine ⟨Nat.one_pos, by constructor <;> norm_num, ?_⟩
  exact (C2_decontamination_band 1 1 (fun _ _ => ((100 : ℚ), 100, 100))
    (fun _ _ => (1 : ℚ)/2) 0 0 Nat.one_pos Nat.one_pos).1
    (by constructor <;> norm_num)

/-- C7: blending a true color with white at alpha `a ∈ (0.15, 0.9)` and
then decontaminating recovers the true color exactly (hence within ±2 per
channel as claimed): for `observed = C*a + 255*(1-a)` per channel,
`decontaminate_edges` on the synthetic observed pixel returns `C`. -/
theorem C7_decontamination_roundtrip (c1 c2 c3 a : ℚ)
    (h1l : 0 ≤ c1) (h1u : c1 ≤ 255) (h2l : 0 ≤ c2) (h2u : c2 ≤ 255)
    (h3l : 0 ≤ c3) (h3u : c3 ≤ 255) (hal : 15/100 < a) (hau : a < 9/10) :
    decontaminate_edges 1 1
        (fun _ _ => (c1 * a + 255 * (1 - a), c2 * a + 255 * (1 - a),
          c3 * a + 255 * (1 - a)))
        (fun _ _ => a) 0 0 = (c1, c2, c3) ∧
      |(decontaminate_edges 1 1
        (fun _ _ => (c1 * a + 255 * (1 - a), c2 * a + 255 * (1 - a),
          c3 * a + 255 * (1 - a)))
        (fun _ _ => a) 0 0).1 - c1| ≤ 2 := by
  have hband : semiBand a := by
    constructor
    · linarith
    · linarith
  have hden : deconDenominator a = a := by
    unfold deconDenominator
    exact max_eq_left (by linarith)
  have hane : a ≠ 0 := by positivity
  have hchan : ∀ c : ℚ, 0 ≤ c → c ≤ 255 →
      deconChannel a (c * a + 255 * (1 - a)) = c := by
    intro c hcl hcu
    unfold deconChannel
    rw [hden]
    have hnum : c * a + 255 * (1 - a) - 255 * (1 - a) = c * a := by ring
    rw [hnum, mul_div_assoc, div_self hane, mul_one]
    unfold clipQ
    rw [max_eq_right hcl, min_eq_right hcu]
  have hmain := (C2_decontamination_band 1 1
    (fun _ _ => (c1 * a + 255 * (1 - a), c2 * a + 255 * (1 - a),
      c3 * a + 255 * (1 - a)))
    (fun _ _ => a) 0 0 Nat.one_pos Nat.one_pos).1 hband
  rw [hmain, hchan c1 h1l h1u, hchan c2 h2l h2u, hchan c3 h3l h3u]
  refine ⟨rfl, ?_⟩
  simp

/-- Witness for C7 at a concrete color and alpha. -/
theorem C7_decontamination_roundtrip_witness :
    decontaminate_edges 1 1
        (fun _ _ => ((100 : ℚ) * (1/2) + 255 * (1 - 1/2),
          (50 : ℚ) * (1/2) + 255 * (1 - 1/2),
          (0 : ℚ) * (1/2) + 255 * (1 - 1/2)))
        (fun _ _ => (1 : ℚ)/2) 0 0 = (100, 50, 0) := by
  exact (C7_decontamination_roundtrip 100 50 0 (1/2)
    (by norm_num) (by norm_num) (by norm_num) (by norm_num)
    (by norm_num) (by norm_num) (by norm_num) (by norm_num)).1

/-- C8: the decontamination division's denominator is floored at 0.01 for
every alpha value, so the division is well-defined for every pixel. -/
theorem C8_denominator_floor (a : ℚ) :
    1/100 ≤ deconDenominator a ∧ 0 < deconDenominator a := by
  have h : (1 : ℚ)/100 ≤ deconDenominator a := le_max_right a (1/100)
  exact ⟨h, lt_of_lt_of_le (by norm_num) h⟩

/-- OpenCV `cv2.cvtColor(rgb, cv2.COLOR_RGB2GRAY)` on 8-bit data (line 150):
fixed-point `0.299 R + 0.587 G + 0.114 B` with coefficients scaled by
`2^14` and round-to-nearest descaling. -/
def grayAt (img : Image) (y x : ℕ) : ℕ :=
  let p := pixAt img y x
  (4899 * p.r + 9617 * p.g + 1868 * p.b + 8192) / 16384

/-- Core-background candidate (lines 149-151): `gray >= 245`, i.e. the
pixel's `core_white_mask` entry is 255 (equivalently `> 240`, the corner
test of line 160). -/
def isCandidate (img : Image) (p : ℕ × ℕ) : Prop := 245 ≤ grayAt img p.1 p.2

instance (img : Image) (p : ℕ × ℕ) : Decidable (isCandidate img p) := by
  unfold isCandidate; infer_instance

/-- The four image corners of line 158, as `(y, x)` coordinates (the source
stores `(x, y)` pairs and indexes `core_white_mask[corner[1], corner[0]]`). -/
def cornerList (img : Image) : List (ℕ × ℕ) :=
  [(0, 0), (0, width img - 1), (height img - 1, 0),
   (height img - 1, width img - 1)]

/-- Corners whose pixel is a core-background candidate: the seeds actually
flood-filled by the loop of lines 159-161. -/
def seedCorners (img : Image) : Finset (ℕ × ℕ) :=
  ((cornerList img).filter fun p => decide (isCandidate img p)).toFinset

theorem mem_seedCorners {img : Image} {p : ℕ × ℕ} :
    p ∈ seedCorners img ↔ p ∈ cornerList img ∧ isCandidate img p := by
  simp [seedCorners, List.mem_filter]

/-- All coordinates of an `h × w` grid, as a finite set. -/
def gridPos (h w : ℕ) : Finset (ℕ × ℕ) := Finset.range h ×ˢ Finset.range w

theorem mem_gridPos {h w : ℕ} {p : ℕ × ℕ} :
    p ∈ gridPos h w ↔ p.1 < h ∧ p.2 < w := by
  simp [gridPos, Finset.mem_product]

/-- 4-neighbor adjacency (the connectivity `cv2.floodFill` uses with the
default `flags`, line 161). -/
def adj4 (p q : ℕ × ℕ) : Prop := Nat.dist p.1 q.1 + Nat.dist p.2 q.2 = 1

instance (p q : ℕ × ℕ) : Decidable (adj4 p q) := by
  unfold adj4; infer_instance

/-- 8-neighbor adjacency. -/
def adj8 (p q : ℕ × ℕ) : Prop :=
  p ≠ q ∧ Nat.dist p.1 q.1 ≤ 1 ∧ Nat.dist p.2 q.2 ≤ 1

instance (p q : ℕ × ℕ) : Decidable (adj8 p q) := by
  unfold adj8; infer_instance

/-- One growth step of the corner flood fill (lines 153-161): add every
in-grid candidate pixel 4-adjacent to an already-filled pixel. -/
def floodStep (img : Image) (S : Finset (ℕ × ℕ)) : Finset (ℕ × ℕ) :=
  S ∪ (gridPos (height img) (width img)).filter
    (fun p => isCandidate img p ∧ ∃ q ∈ S, adj4 q p)

/-- The `flood_image == 128` mask of lines 153-164: candidate pixels
connected to a qualifying corner. The one-step closure is iterated `h*w`
times, enough to reach a fixpoint. -/
def definiteBackground (img : Image) : Finset (ℕ × ℕ) :=
  (floodStep img)^[height img * width img] (seedCorners img)

/-- Single flood-fill move of the code: step to a 4-adjacent in-grid
candidate pixel. -/
def floodAdj4 (img : Image) (q p : ℕ × ℕ) : Prop :=
  adj4 q p ∧ p ∈ gridPos (height img) (width img) ∧ isCandidate img p

/-- Modelled from the spec: §4.1 step 3 grows the region through candidate
pixels under 8-neighbor adjacency; a single such move. -/
def floodAdj8 (img : Image) (q p : ℕ × ℕ) : Prop :=
  adj8 q p ∧ p ∈ gridPos (height img) (width img) ∧ isCandidate img p

instance (img : Image) (q p : ℕ × ℕ) : Decidable (floodAdj8 img q p) := by
  unfold floodAdj8; infer_instance

theorem floodStep_subset (img : Image) (S : Finset (ℕ × ℕ)) :
    S ⊆ floodStep img S := Finset.subset_union_left

theorem floodStep_iterate_le (img : Image) (S : Finset (ℕ × ℕ)) (m : ℕ) :
    ∀ k, (floodStep img)^[m] S ⊆ (floodStep img)^[m + k] S := by
  intro k
  induction k with
  | zero => exact subset_rfl
  | succ k ih =>
    rw [← Nat.add_assoc, Function.iterate_succ_apply']
    exact ih.trans (floodStep_subset img _)

theorem floodStep_iterate_subset (img : Image) (S : Finset (ℕ × ℕ)) :
    ∀ n, (floodStep img)^[n] S ⊆
      S ∪ gridPos (height img) (width img) := by
  intro n
  induction n with
  | zero => exact Finset.subset_union_left
  | succ n ih =>
    rw [Function.iterate_succ_apply']
    unfold floodStep
    exact Finset.union_subset (ih.trans subset_rfl)
      ((Finset.filter_subset _ _).trans Finset.subset_union_right)

theorem floodStep_growth (img : Image) (S : Finset (ℕ × ℕ)) :
    ∀ n, (∀ k, k < n → (floodStep img)^[k + 1] S ≠ (floodStep img)^[k] S) →
      S.card + n ≤ ((floodStep img)^[n] S).card := by
  intro n
  induction n with
  | zero => simp
  | succ n ih =>
    intro hne
    have h1 : S.card + n ≤ ((floodStep img)^[n] S).card :=
      ih fun k hk => hne k (Nat.lt_succ_of_lt hk)
    have h2 : (floodStep img)^[n] S ⊂ (floodStep img)^[n + 1] S := by
      rw [Finset.ssubset_iff_subset_ne]
      refine ⟨?_, fun h => hne n (Nat.lt_succ_self n) h.symm⟩
      have := floodStep_iterate_le img S n 1
      simpa using this
    have := Finset.card_lt_card h2
    omega

theorem floodStep_fix (img : Image) (S : Finset (ℕ × ℕ)) (k : ℕ)
    (hfix : (floodStep img)^[k + 1] S = (floodStep img)^[k] S) :
    ∀ j, (floodStep img)^[k + j] S = (floodStep img)^[k] S := by
  intro j
  induction j with
  | zero => rfl
  | succ j ih =>
    have h1 : (floodStep img)^[k + (j + 1)] S =
        floodStep img ((floodStep img)^[k + j] S) := by
      rw [← Nat.add_assoc, Function.iterate_succ_apply']
    have h2 : floodStep img ((floodStep img)^[k] S) =
        (floodStep img)^[k + 1] S :=
      (Function.iterate_succ_apply' _ _ _).symm
    rw [h1, ih, h2, hfix]

theorem floodStep_exists_fix (img : Image) (S : Finset (ℕ × ℕ)) :
    ∃ k, k ≤ height img * width img ∧
      (floodStep img)^[k + 1] S = (floodStep img)^[k] S := by
  by_contra hno
  push_neg at hno
  have hgrow := floodStep_growth img S (height img * width img + 1)
    (fun k hk => hno k (by omega))
  have hsub := floodStep_iterate_subset img S (height img * width img + 1)
  have hcard := Finset.card_le_card hsub
  have hunion : (S ∪ gridPos (height img) (width img)).card ≤
      S.card + height img * width img := by
    have := Finset.card_union_le S (gridPos (height img) (width img))
    have hg : (gridPos (height img) (width img)).card =
        height img * width img := by
      simp [gridPos]
    omega
  omega

/-- Any iterate is contained in the `h*w`-th iterate. -/
theorem floodStep_iterate_le_final (img : Image) (S : Finset (ℕ × ℕ)) (n : ℕ) :
    (floodStep img)^[n] S ⊆
      (floodStep img)^[height img * width img] S := by
  rcases Nat.le_total n (height img * width img) with h | h
  · obtain ⟨k, hk⟩ := Nat.le.dest h
    rw [← hk]
    exact floodStep_iterate_le img S n k
  · obtain ⟨k, hkN, hfix⟩ := floodStep_exists_fix img S
    obtain ⟨j, hj⟩ := Nat.le.dest (hkN.trans h)
    obtain ⟨i, hi⟩ := Nat.le.dest hkN
    rw [← hj, floodStep_fix img S k hfix j, ← hi,
      floodStep_fix img S k hfix i]

/-- Soundness of the iterated flood fill: everything in the mask is a
candidate pixel reachable from a qualifying corner by 4-adjacent moves
through candidate pixels. -/
theorem flood_sound (img : Image) :
    ∀ n p, p ∈ (floodStep img)^[n] (seedCorners img) →
      isCandidate img p ∧ ∃ c ∈ seedCorners img,
        Relation.ReflTransGen (floodAdj4 img) c p := by
  intro n
  induction n with
  | zero =>
    intro p hp
    rw [Function.iterate_zero_apply] at hp
    exact ⟨(mem_seedCorners.1 hp).2, p, hp, Relation.ReflTransGen.refl⟩
  | succ n ih =>
    intro p hp
    rw [Function.iterate_succ_apply'] at hp
    rcases Finset.mem_union.1 hp with h | h
    · exact ih p h
    · rw [Finset.mem_filter] at h
      obtain ⟨hgrid, hcand, q, hq, hadj⟩ := h
      obtain ⟨_, c, hc, hrtg⟩ := ih q hq
      exact ⟨hcand, c, hc, hrtg.tail ⟨hadj, hgrid, hcand⟩⟩

/-- Completeness of the iterated flood fill: any candidate pixel reachable
from a qualifying corner by 4-adjacent candidate moves is in the mask. -/
theorem flood_complete (img : Image) {c p : ℕ × ℕ}
    (hc : c ∈ seedCorners img)
    (h : Relation.ReflTransGen (floodAdj4 img) c p) :
    p ∈ definiteBackground img := by
  have hfuel : ∃ n, p ∈ (floodStep img)^[n] (seedCorners img) := by
    induction h with
    | refl => exact ⟨0, by rw [Function.iterate_zero_apply]; exact hc⟩
    | tail _ hqp ih =>
      obtain ⟨n, hb⟩ := ih
      refine ⟨n + 1, ?_⟩
      rw [Function.iterate_succ_apply']
      refine Finset.mem_union_right _ (Finset.mem_filter.2
        ⟨hqp.2.1, hqp.2.2, _, hb, hqp.1⟩)
  obtain ⟨n, hn⟩ := hfuel
  exact floodStep_iterate_le_final img (seedCorners img) n hn

/-- C3 counterexample image: a 3×3 buffer whose top-left corner is white
(a candidate) and whose center is white, with the two connected only
diagonally; all other pixels are mid-gray. -/
def c3img : Image :=
  [[⟨255, 255, 255, 255⟩, ⟨100, 100, 100, 255⟩, ⟨100, 100, 100, 255⟩],
   [⟨100, 100, 100, 255⟩, ⟨255, 255, 255, 255⟩, ⟨100, 100, 100, 255⟩],
   [⟨100, 100, 100, 255⟩, ⟨100, 100, 100, 255⟩, ⟨100, 100, 100, 255⟩]]

/-- C3 (counterexample): on `c3img` the definite-background mask is not
the set of candidate pixels reachable from qualifying corners under
8-neighbor adjacency — the center pixel is 8-reachable from the top-left
corner but `cv2.floodFill`'s default 4-connectivity does not reach it. -/
theorem C3_counterexample :
    ¬ (∀ p, p ∈ definiteBackground c3img ↔
        (isCandidate c3img p ∧ ∃ c ∈ seedCorners c3img,
          Relation.ReflTransGen (floodAdj8 c3img) c p)) := by
  intro hcl
  have h11 : (1, 1) ∈ definiteBackground c3img := by
    refine (hcl (1, 1)).2 ⟨by decide, (0, 0), by decide, ?_⟩
    exact Relation.ReflTransGen.single (by decide)
  have hnot : (1, 1) ∉ definiteBackground c3img := by decide
  exact hnot h11

/-- C3 (amended): the definite-background mask contains exactly the
candidate pixels reachable from the qualifying corners through chains of
candidate pixels under 4-neighbor adjacency (the default connectivity of
`cv2.floodFill`). -/
theorem C3_flood_region (img : Image) :
    ∀ p, p ∈ definiteBackground img ↔
      (isCandidate img p ∧ ∃ c ∈ seedCorners img,
        Relation.ReflTransGen (floodAdj4 img) c p) := by
  intro p
  constructor
  · intro hp
    exact flood_sound img (height img * width img) p hp
  · rintro ⟨_, c, hc, hrtg⟩
    exact flood_complete img hc hrtg

/-- Indicator grid of the definite-background mask (line 164:
`(flood_image == 128).astype(np.uint8)`). -/
def definiteAt (img : Image) (y x : ℕ) : ℕ :=
  if (y, x) ∈ definiteBackground img then 1 else 0

/-- Support offsets of `cv2.getStructuringElement(cv2.MORPH_ELLIPSE, (5, 5))`
(line 168), indexed from the kernel's top-left; the anchor is (2, 2). -/
def ellipse5 : List (ℕ × ℕ) :=
  [(0, 2),
   (1, 0), (1, 1), (1, 2), (1, 3), (1, 4),
   (2, 0), (2, 1), (2, 2), (2, 3), (2, 4),
   (3, 0), (3, 1), (3, 2), (3, 3), (3, 4),
   (4, 2)]

/-- One `cv2.dilate` pass with the 5×5 ellipse kernel (line 169): maximum
of the grid over the in-bounds kernel window (the constant border never
contributes to a dilation maximum). -/
def dilateE (h w : ℕ) (g : ℕ → ℕ → ℕ) (y x : ℕ) : ℕ :=
  (ellipse5.map fun o =>
    if 2 ≤ y + o.1 ∧ 2 ≤ x + o.2 ∧ y + o.1 - 2 < h ∧ x + o.2 - 2 < w then
      g (y + o.1 - 2) (x + o.2 - 2)
    else 0).foldr max 0

/-- The `expanded_background` mask of line 169 (`iterations=2`). -/
def expandedAt (img : Image) : ℕ → ℕ → ℕ :=
  dilateE (height img) (width img)
    (dilateE (height img) (width img) (definiteAt img))

/-- Graduated alpha estimate of lines 173-194: 0 on definite background,
luminance ramps on the expansion zone (`> 230` bright ramp, `> 200`
mid ramp, otherwise untouched, i.e. 1), and 1 elsewhere. -/
def alphaChan (img : Image) (y x : ℕ) : ℚ :=
  if definiteAt img y x = 1 then 0
  else if expandedAt img y x = 1 then
    if 230 < grayAt img y x then
      (max 0 (255 - (((grayAt img y x : ℚ) - 230) / 25 * 255))) / 255
    else if 200 < grayAt img y x then
      (min 255 ((230 - (grayAt img y x : ℚ)) / 30 * 128 + 127)) / 255
    else 1
  else 1

/-- OpenCV BORDER_REFLECT_101 index resolution for a length-`n` axis and a
(radius-1) sample position `j ∈ {-1, …, n}`. -/
def refl101 (n : ℕ) (j : ℤ) : ℕ :=
  if n ≤ 1 then 0
  else if j < 0 then (-j).toNat
  else if (n : ℤ) ≤ j then (2 * (n : ℤ) - 2 - j).toNat
  else j.toNat

/-- Horizontal pass of a separable 3-tap kernel `(side, center) = (k.1, k.2)`
with REFLECT_101 borders. -/
def blurH (k : ℚ × ℚ) (w : ℕ) (g : ℕ → ℕ → ℚ) (y x : ℕ) : ℚ :=
  k.1 * g y (refl101 w ((x : ℤ) - 1)) + k.2 * g y x +
    k.1 * g y (refl101 w ((x : ℤ) + 1))

/-- Vertical pass of a separable 3-tap kernel with REFLECT_101 borders. -/
def blurV (k : ℚ × ℚ) (h : ℕ) (g : ℕ → ℕ → ℚ) (y x : ℕ) : ℚ :=
  k.1 * g (refl101 h ((y : ℤ) - 1)) x + k.2 * g y x +
    k.1 * g (refl101 h ((y : ℤ) + 1)) x

/-- `cv2.GaussianBlur(·, (3, 3), σ)` modelled with the normalized separable
kernel `(k.1, k.2, k.1)` as a parameter (its two distinct coefficients are
irrational reals computed by OpenCV from σ; every theorem quantifies over
them, requiring normalization `2*k.1 + k.2 = 1` only where needed). -/
def gaussianBlur3 (k : ℚ × ℚ) (h w : ℕ) (g : ℕ → ℕ → ℚ) : ℕ → ℕ → ℚ :=
  blurV k h (blurH k w g)

/-- The alpha mask after the smoothing blur of line 198. -/
def alphaBlurred (img : Image) (k₁ : ℚ × ℚ) : ℕ → ℕ → ℚ :=
  gaussianBlur3 k₁ (height img) (width img) (alphaChan img)

/-- `rgb.astype(np.float32)` (line 202). -/
def rgbFloat (img : Image) (y x : ℕ) : ℚ × ℚ × ℚ :=
  (((pixAt img y x).r : ℚ), ((pixAt img y x).g : ℚ), ((pixAt img y x).b : ℚ))

/-- `rgb_decontaminated` (line 203). -/
def rgbDecon (img : Image) (k₁ : ℚ × ℚ) : ℕ → ℕ → ℚ × ℚ × ℚ :=
  decontaminate_edges (height img) (width img) (rgbFloat img)
    (alphaBlurred img k₁)

/-- numpy `.astype(np.uint8)` on a float: truncate toward zero, wrapping
modulo 256 (the wrap is never exercised by in-range pipeline values). -/
def floatToU8 (q : ℚ) : ℕ := (Int.toNat ⌊q⌋) % 256

/-- `alpha_uint8 = (alpha_channel * 255).astype(np.uint8)` (line 207). -/
def alphaU8 (img : Image) (k₁ : ℚ × ℚ) (y x : ℕ) : ℕ :=
  floatToU8 (alphaBlurred img k₁ y x * 255)

/-- In-bounds values of the 2×2 structuring-element window anchored at
(1, 1) (`np.ones((2, 2))`, lines 210-211). -/
def window2x2 (h w : ℕ) (g : ℕ → ℕ → ℕ) (y x : ℕ) : List ℕ :=
  ([(0, 0), (0, 1), (1, 0), (1, 1)] : List (ℕ × ℕ)).filterMap fun o =>
    if 1 ≤ y + o.1 ∧ 1 ≤ x + o.2 ∧ y + o.1 - 1 < h ∧ x + o.2 - 1 < w then
      some (g (y + o.1 - 1) (x + o.2 - 1))
    else none

/-- Dilation of the 2×2 closing (out-of-bounds treated as the neutral
element of max, OpenCV's constant-border convention for dilation). -/
def dilate2x2 (h w : ℕ) (g : ℕ → ℕ → ℕ) (y x : ℕ) : ℕ :=
  (window2x2 h w g y x).foldr max 0

/-- Erosion of the 2×2 closing (out-of-bounds treated as the neutral
element of min on 8-bit data). -/
def erode2x2 (h w : ℕ) (g : ℕ → ℕ → ℕ) (y x : ℕ) : ℕ :=
  (window2x2 h w g y x).foldr min 255

/-- `cv2.morphologyEx(alpha_uint8, cv2.MORPH_CLOSE, np.ones((2, 2)))`
(lines 210-211): dilation followed by erosion. -/
def close2x2 (h w : ℕ) (g : ℕ → ℕ → ℕ) : ℕ → ℕ → ℕ :=
  erode2x2 h w (dilate2x2 h w g)

/-- The alpha channel right after the morphological closing of line 211,
i.e. before the final smoothing blur of line 214. -/
def alphaU8Closed (img : Image) (k₁ : ℚ × ℚ) : ℕ → ℕ → ℕ :=
  close2x2 (height img) (width img) (alphaU8 img k₁)

/-- OpenCV `saturate_cast<uchar>` of a float result: round to nearest and
clamp to 0..255. -/
def satRoundU8 (q : ℚ) : ℕ := min 255 (Int.toNat ⌊q + 1/2⌋)

/-- `cv2.GaussianBlur` on 8-bit data (line 214): separable filtering at
higher precision, saturate-rounded back to uint8. -/
def gaussianBlurU8 (k : ℚ × ℚ) (h w : ℕ) (g : ℕ → ℕ → ℕ) (y x : ℕ) : ℕ :=
  satRoundU8 (gaussianBlur3 k h w (fun y' x' => (g y' x' : ℚ)) y x)

/-- The final alpha channel written back at line 224. -/
def alphaFinal (img : Image) (k₁ k₂ : ℚ × ℚ) (y x : ℕ) : ℕ :=
  gaussianBlurU8 k₂ (height img) (width img) (alphaU8Closed img k₁) y x

/-- Fresh `h × w` buffer with pixel `(y, x)` given by `f y x`. -/
def buildImage (h w : ℕ) (f : ℕ → ℕ → Pixel) : Image :=
  (List.range h).map fun y => (List.range w).map fun x => f y x

/-- Embedding of `StoryPoseGenerator.remove_white_background`
(lines 124-226), parametrized by the two Gaussian kernels `k₁` (line 198,
σ=0.8) and `k₂` (line 214, σ=0.5): if the alpha mean is below 240 the
buffer is returned unchanged (lines 138-142); otherwise segmentation,
graduated alpha, decontamination and recombination run (the 4-channel
branch of lines 222-224 — the pipeline always feeds RGBA buffers). -/
def remove_white_background (k₁ k₂ : ℚ × ℚ) (img : Image) : Image :=
  if sumAlpha img < 240 * (height img * width img) then img
  else
    buildImage (height img) (width img) fun y x =>
      ⟨floatToU8 (rgbDecon img k₁ y x).1,
       floatToU8 (rgbDecon img k₁ y x).2.1,
       floatToU8 (rgbDecon img k₁ y x).2.2,
       alphaFinal img k₁ k₂ y x⟩

theorem buildImage_height (h w : ℕ) (f : ℕ → ℕ → Pixel) :
    height (buildImage h w f) = h := by
  simp [buildImage, height]

theorem buildImage_width (h w : ℕ) (f : ℕ → ℕ → Pixel) (hh : 0 < h) :
    width (buildImage h w f) = w := by
  unfold width buildImage
  rw [List.getD_eq_getElem _ _ (by simpa using hh)]
  rw [List.getElem_map]
  simp

theorem pixAt_buildImage (h w : ℕ) (f : ℕ → ℕ → Pixel) {y x : ℕ}
    (hy : y < h) (hx : x < w) : pixAt (buildImage h w f) y x = f y x := by
  have h1 : (buildImage h w f).getD y [] =
      (List.range w).map fun x' => f y x' := by
    unfold buildImage
    rw [List.getD_eq_getElem _ _ (by simpa using hy), List.getElem_map,
      List.getElem_range]
  unfold pixAt
  rw [h1, List.getD_eq_getElem _ _ (by simpa using hx), List.getElem_map,
    List.getElem_range]

theorem rwb_height (k₁ k₂ : ℚ × ℚ) (img : Image) :
    height (remove_white_background k₁ k₂ img) = height img := by
  unfold remove_white_background
  split
  · rfl
  · exact buildImage_height _ _ _

theorem rwb_width (k₁ k₂ : ℚ × ℚ) (img : Image) :
    width (remove_white_background k₁ k₂ img) = width img := by
  unfold remove_white_background
  split
  · rfl
  · rcases Nat.eq_zero_or_pos (height img) with h0 | hpos
    · have himg : img = [] := List.length_eq_zero.1 h0
      subst himg
      simp [buildImage, width, height]
    · exact buildImage_width _ _ _ hpos

/-- C10: a 4-channel buffer whose alpha channel's mean is below 240 is
returned unchanged by `remove_white_background` (the early return of
lines 138-142), with no segmentation, alpha estimation or decontamination
performed. -/
theorem C10_transparent_bypass (k₁ k₂ : ℚ × ℚ) (img : Image)
    (hwf : WellFormed img)
    (hmean : (sumAlpha img : ℚ) / ((height img * width img : ℕ) : ℚ) < 240) :
    remove_white_background k₁ k₂ img = img := by
  have hpos : 0 < height img * width img := Nat.mul_pos hwf.1 hwf.2.1
  have hposq : (0 : ℚ) < ((height img * width img : ℕ) : ℚ) := by
    exact_mod_cast hpos
  have h : sumAlpha img < 240 * (height img * width img) := by
    have h2 := (div_lt_iff₀ hposq).1 hmean
    exact_mod_cast h2
  rw [remove_white_background, if_pos h]

/-- Witness for C10: a fully transparent 1×1 buffer. -/
theorem C10_transparent_bypass_witness :
    WellFormed [[(⟨0, 0, 0, 0⟩ : Pixel)]] ∧
    (sumAlpha [[(⟨0, 0, 0, 0⟩ : Pixel)]] : ℚ) /
      ((height [[(⟨0, 0, 0, 0⟩ : Pixel)]] *
        width [[(⟨0, 0, 0, 0⟩ : Pixel)]] : ℕ) : ℚ) < 240 ∧
    remove_white_background (0, 1) (0, 1) [[(⟨0, 0, 0, 0⟩ : Pixel)]] =
      [[(⟨0, 0, 0, 0⟩ : Pixel)]] :=
  ⟨by decide, by norm_num [sumAlpha, height, width],
    C10_transparent_bypass (0, 1) (0, 1) _ (by decide)
      (by norm_num [sumAlpha, height, width])⟩

theorem foldr_max_le {m : ℕ} :
    ∀ l : List ℕ, (∀ v ∈ l, v ≤ m) → l.foldr max 0 ≤ m := by
  intro l
  induction l with
  | nil => intro _; exact Nat.zero_le m
  | cons v vs ih =>
    intro hall
    have h1 := hall v (List.mem_cons_self v vs)
    have h2 := ih fun u hu => hall u (List.mem_cons_of_mem v hu)
    simpa using ⟨h1, h2⟩

theorem le_foldr_max {v : ℕ} :
    ∀ l : List ℕ, v ∈ l → v ≤ l.foldr max 0 := by
  intro l
  induction l with
  | nil => intro hv; cases hv
  | cons u us ih =>
    intro hv
    rcases List.mem_cons.1 hv with h | h
    · subst h; exact le_max_left _ _
    · exact (ih h).trans (le_max_right _ _)

theorem foldr_min_le_init : ∀ l : List ℕ, l.foldr min 255 ≤ 255 := by
  intro l
  induction l with
  | nil => exact le_refl _
  | cons v vs ih => exact (min_le_right _ _).trans ih

theorem le_foldr_min {m : ℕ} :
    ∀ l : List ℕ, (∀ v ∈ l, m ≤ v) → m ≤ 255 → m ≤ l.foldr min 255 := by
  intro l
  induction l with
  | nil => intro _ h; exact h
  | cons v vs ih =>
    intro hall h255
    have h1 := hall v (List.mem_cons_self v vs)
    have h2 := ih (fun u hu => hall u (List.mem_cons_of_mem v hu)) h255
    simpa using ⟨h1, h2⟩

theorem foldr_max_zero (l : List ℕ) (h : ∀ v ∈ l, v = 0) :
    l.foldr max 0 = 0 :=
  Nat.le_antisymm (foldr_max_le l fun v hv => Nat.le_of_eq (h v hv))
    (Nat.zero_le _)

theorem floodStep_empty (img : Image) :
    floodStep img (∅ : Finset (ℕ × ℕ)) = ∅ := by
  unfold floodStep
  simp

theorem floodStep_iterate_empty (img : Image) :
    ∀ n, (floodStep img)^[n] (∅ : Finset (ℕ × ℕ)) = ∅ := by
  intro n
  induction n with
  | zero => rfl
  | succ n ih => rw [Function.iterate_succ_apply', ih, floodStep_empty]

theorem dilateE_zero (h w : ℕ) (g : ℕ → ℕ → ℕ)
    (hg : ∀ y x, g y x = 0) : ∀ y x, dilateE h w g y x = 0 := by
  intro y x
  apply foldr_max_zero
  intro v hv
  rw [List.mem_map] at hv
  obtain ⟨o, _, rfl⟩ := hv
  split
  · exact hg _ _
  · rfl

theorem window2x2_mem {h w : ℕ} {g : ℕ → ℕ → ℕ} {y x v : ℕ}
    (hv : v ∈ window2x2 h w g y x) :
    ∃ y' x', y' < h ∧ x' < w ∧ v = g y' x' := by
  unfold window2x2 at hv
  rw [List.mem_filterMap] at hv
  obtain ⟨o, _, ho⟩ := hv
  by_cases hc : 1 ≤ y + o.1 ∧ 1 ≤ x + o.2 ∧ y + o.1 - 1 < h ∧ x + o.2 - 1 < w
  · rw [if_pos hc] at ho
    exact ⟨y + o.1 - 1, x + o.2 - 1, hc.2.2.1, hc.2.2.2,
      (Option.some_injective _ ho).symm⟩
  · rw [if_neg hc] at ho
    cases ho

theorem window2x2_self_mem (h w : ℕ) (g : ℕ → ℕ → ℕ) {y x : ℕ}
    (hy : y < h) (hx : x < w) : g y x ∈ window2x2 h w g y x := by
  unfold window2x2
  rw [List.mem_filterMap]
  refine ⟨(1, 1), by simp, ?_⟩
  rw [if_pos ⟨by omega, by omega, by simpa using hy, by simpa using hx⟩]
  simp

theorem close2x2_const255 (h w : ℕ) (g : ℕ → ℕ → ℕ)
    (hg : ∀ y x, g y x = 255) {y x : ℕ} (hy : y < h) (hx : x < w) :
    close2x2 h w g y x = 255 := by
  have hdil : ∀ y' x', y' < h → x' < w → dilate2x2 h w g y' x' = 255 := by
    intro y' x' hy' hx'
    unfold dilate2x2
    apply Nat.le_antisymm
    · apply foldr_max_le
      intro v hv
      obtain ⟨ya, xa, _, _, rfl⟩ := window2x2_mem hv
      exact Nat.le_of_eq (hg ya xa)
    · have := window2x2_self_mem h w g hy' hx'
      rw [hg y' x'] at this
      exact le_foldr_max _ this
  unfold close2x2 erode2x2
  apply Nat.le_antisymm
  · exact foldr_min_le_init _
  · apply le_foldr_min
    · intro v hv
      obtain ⟨ya, xa, hya, hxa, rfl⟩ := window2x2_mem hv
      exact Nat.le_of_eq (hdil ya xa hya hxa).symm
    · exact le_refl _

theorem floatToU8_natCast {n : ℕ} (h : n ≤ 255) : floatToU8 (n : ℚ) = n := by
  unfold floatToU8
  rw [Int.floor_natCast]
  simp [Nat.mod_eq_of_lt (by omega : n < 256)]

/-- Channel bounds of an in-bounds pixel of a well-formed buffer. -/
theorem pixAt_bounds {img : Image} (hwf : WellFormed img) {y x : ℕ}
    (hy : y < height img) (hx : x < width img) :
    (pixAt img y x).r ≤ 255 ∧ (pixAt img y x).g ≤ 255 ∧
      (pixAt img y x).b ≤ 255 ∧ (pixAt img y x).a ≤ 255 := by
  obtain ⟨_, _, hrows⟩ := hwf
  have hrow_mem : img.getD y [] ∈ img := by
    rw [List.getD_eq_getElem _ _ (by simpa [height] using hy)]
    exact List.getElem_mem _
  obtain ⟨hlen, hpx⟩ := hrows _ hrow_mem
  have hx' : x < (img.getD y []).length := by rw [hlen]; exact hx
  have hpx_mem : (img.getD y []).getD x pxDefault ∈ img.getD y [] := by
    rw [List.getD_eq_getElem _ _ hx']
    exact List.getElem_mem _
  exact hpx _ hpx_mem

/-- C4: when the buffer reaches the segmentation path (alpha mean at least
240) and no corner pixel is a core-background candidate,
`remove_white_background` produces an empty definite-background mask,
treats the whole image as foreground — every alpha value equals 255 right
before the final smoothing blur, and the color channels of the output
equal the input's — and returns a buffer of the input's dimensions
without error. -/
theorem C4_no_corner_graceful (k₁ k₂ : ℚ × ℚ) (img : Image)
    (hwf : WellFormed img) (hk : 2 * k₁.1 + k₁.2 = 1)
    (hmean : ¬ sumAlpha img < 240 * (height img * width img))
    (hcorner : ∀ p ∈ cornerList img, ¬ isCandidate img p) :
    definiteBackground img = ∅ ∧
    (∀ y, y < height img → ∀ x, x < width img →
      alphaU8Closed img k₁ y x = 255) ∧
    (∀ y, y < height img → ∀ x, x < width img →
      (pixAt (remove_white_background k₁ k₂ img) y x).r = (pixAt img y x).r ∧
      (pixAt (remove_white_background k₁ k₂ img) y x).g = (pixAt img y x).g ∧
      (pixAt (remove_white_background k₁ k₂ img) y x).b = (pixAt img y x).b) ∧
    height (remove_white_background k₁ k₂ img) = height img ∧
    width (remove_white_background k₁ k₂ img) = width img := by
  have hseeds : seedCorners img = ∅ := by
    rw [Finset.eq_empty_iff_forall_not_mem]
    intro p hp
    obtain ⟨hmem, hcand⟩ := mem_seedCorners.1 hp
    exact hcorner p hmem hcand
  have hdef : definiteBackground img = ∅ := by
    unfold definiteBackground
    rw [hseeds]
    exact floodStep_iterate_empty img _
  have hdefAt : ∀ y x, definiteAt img y x = 0 := by
    intro y x
    unfold definiteAt
    rw [hdef]
    simp
  have hexp : ∀ y x, expandedAt img y x = 0 := by
    unfold expandedAt
    exact dilateE_zero _ _ _ (dilateE_zero _ _ _ hdefAt)
  have halpha : ∀ y x, alphaChan img y x = 1 := by
    intro y x
    unfold alphaChan
    rw [hdefAt, hexp]
    norm_num
  have hblurH : ∀ y x, blurH k₁ (width img) (alphaChan img) y x = 1 := by
    intro y x
    unfold blurH
    rw [halpha, halpha, halpha]
    linear_combination hk
  have hblur : ∀ y x, alphaBlurred img k₁ y x = 1 := by
    intro y x
    unfold alphaBlurred gaussianBlur3 blurV
    rw [hblurH, hblurH, hblurH]
    linear_combination hk
  have hU8 : ∀ y x, alphaU8 img k₁ y x = 255 := by
    intro y x
    unfold alphaU8
    rw [hblur]
    norm_num
    exact floatToU8_natCast (le_refl 255)
  have hclosed : ∀ y, y < height img → ∀ x, x < width img →
      alphaU8Closed img k₁ y x = 255 := by
    intro y hy x hx
    exact close2x2_const255 _ _ _ hU8 hy hx
  have hnoband : ∀ y x, ¬ semiBand (alphaBlurred img k₁ y x) := by
    intro y x
    rw [hblur]
    unfold semiBand
    norm_num
  have hguard : ¬ ((posList (height img) (width img)).any
      (fun p => decide (semiBand (alphaBlurred img k₁ p.1 p.2))) = true) := by
    rw [List.any_eq_true]
    rintro ⟨p, _, hp⟩
    exact hnoband p.1 p.2 (of_decide_eq_true hp)
  have hdecon : rgbDecon img k₁ = rgbFloat img := by
    unfold rgbDecon decontaminate_edges
    rw [if_neg hguard]
  have hrgb : ∀ y, y < height img → ∀ x, x < width img →
      (pixAt (remove_white_background k₁ k₂ img) y x).r = (pixAt img y x).r ∧
      (pixAt (remove_white_background k₁ k₂ img) y x).g = (pixAt img y x).g ∧
      (pixAt (remove_white_background k₁ k₂ img) y x).b = (pixAt img y x).b := by
    intro y hy x hx
    obtain ⟨hr, hg, hb, _⟩ := pixAt_bounds hwf hy hx
    rw [remove_white_background, if_neg hmean, pixAt_buildImage _ _ _ hy hx,
      hdecon]
    unfold rgbFloat
    exact ⟨floatToU8_natCast hr, floatToU8_natCast hg, floatToU8_natCast hb⟩
  exact ⟨hdef, hclosed, hrgb, rwb_height k₁ k₂ img, rwb_width k₁ k₂ img⟩

/-- Witness for C4: a 1×1 opaque black buffer, identity kernel. -/
theorem C4_no_corner_graceful_witness :
    WellFormed [[(⟨0, 0, 0, 255⟩ : Pixel)]] ∧
    2 * ((0 : ℚ), (1 : ℚ)).1 + ((0 : ℚ), (1 : ℚ)).2 = 1 ∧
    ¬ sumAlpha [[(⟨0, 0, 0, 255⟩ : Pixel)]] <
      240 * (height [[(⟨0, 0, 0, 255⟩ : Pixel)]] *
        width [[(⟨0, 0, 0, 255⟩ : Pixel)]]) ∧
    (∀ p ∈ cornerList [[(⟨0, 0, 0, 255⟩ : Pixel)]],
      ¬ isCandidate [[(⟨0, 0, 0, 255⟩ : Pixel)]] p) ∧
    definiteBackground [[(⟨0, 0, 0, 255⟩ : Pixel)]] = ∅ ∧
    (∀ y, y < height [[(⟨0, 0, 0, 255⟩ : Pixel)]] →
      ∀ x, x < width [[(⟨0, 0, 0, 255⟩ : Pixel)]] →
      alphaU8Closed [[(⟨0, 0, 0, 255⟩ : Pixel)]] (0, 1) y x = 255) :=
  ⟨by decide, by norm_num, by decide, by decide,
    (C4_no_corner_graceful (0, 1) (0, 1) _ (by decide) (by norm_num)
      (by decide) (by decide)).1,
    (C4_no_corner_graceful (0, 1) (0, 1) _ (by decide) (by norm_num)
      (by decide) (by decide)).2.1⟩

/-- Does row `y` contain a pixel with alpha above the visibility
threshold? (`rows = np.any(alpha > 10, axis=1)`, line 246). -/
def cropRowsAny (proc : Image) (y : ℕ) : Bool :=
  (List.range (width proc)).any fun x => decide (10 < alphaAt proc y x)

/-- Does column `x` contain a pixel with alpha above the visibility
threshold? (`cols = np.any(alpha > 10, axis=0)`, line 247). -/
def cropColsAny (proc : Image) (x : ℕ) : Bool :=
  (List.range (height proc)).any fun y => decide (10 < alphaAt proc y x)

/-- Indices of rows containing visible content (`np.where(rows)[0]`). -/
def cropRowIdx (proc : Image) : List ℕ :=
  (List.range (height proc)).filter (cropRowsAny proc)

/-- Indices of columns containing visible content (`np.where(cols)[0]`). -/
def cropColIdx (proc : Image) : List ℕ :=
  (List.range (width proc)).filter (cropColsAny proc)

/-- `rmin = max(0, rmin - padding)` (line 255; natural subtraction clamps
at 0). -/
def cropRMin (proc : Image) : ℕ := (cropRowIdx proc).headD 0 - 2

/-- `rmax = min(h - 1, rmax + padding)` (line 256). -/
def cropRMax (proc : Image) : ℕ :=
  min (height proc - 1) ((cropRowIdx proc).getLastD 0 + 2)

/-- `cmin = max(0, cmin - padding)` (line 257). -/
def cropCMin (proc : Image) : ℕ := (cropColIdx proc).headD 0 - 2

/-- `cmax = min(w - 1, cmax + padding)` (line 258). -/
def cropCMax (proc : Image) : ℕ :=
  min (width proc - 1) ((cropColIdx proc).getLastD 0 + 2)

/-- The slice `image_array[rmin:rmax+1, cmin:cmax+1]` (line 260). -/
def cropSlice (proc : Image) : Image :=
  ((proc.drop (cropRMin proc)).take (cropRMax proc + 1 - cropRMin proc)).map
    fun row =>
      (row.drop (cropCMin proc)).take (cropCMax proc + 1 - cropCMin proc)

/-- Embedding of `StoryPoseGenerator.crop_sprite_tight` (lines 228-262):
remove the white background, then, if some row and some column contain a
pixel with alpha above 10, crop to the padded bounding box; otherwise
return the background-removed buffer as is. -/
def crop_sprite_tight (k₁ k₂ : ℚ × ℚ) (img : Image) : Image :=
  if ((List.range (height (remove_white_background k₁ k₂ img))).any
        (cropRowsAny (remove_white_background k₁ k₂ img))) ∧
      ((List.range (width (remove_white_background k₁ k₂ img))).any
        (cropColsAny (remove_white_background k₁ k₂ img))) then
    cropSlice (remove_white_background k₁ k₂ img)
  else remove_white_background k₁ k₂ img

/-- C1 counterexample input: a 2×2 all-white, fully opaque buffer. White
background removal turns its alpha to 0 everywhere, so the crop condition
fails, yet the returned buffer differs from the input. -/
def c1img : Image :=
  [[⟨255, 255, 255, 255⟩, ⟨255, 255, 255, 255⟩],
   [⟨255, 255, 255, 255⟩, ⟨255, 255, 255, 255⟩]]

/-- When no pixel of the background-removed buffer has alpha above 10,
the branch of line 249 is not taken and `crop_sprite_tight` returns the
background-removed buffer as is. -/
theorem crop_eq_of_no_visible (k₁ k₂ : ℚ × ℚ) (img : Image)
    (halpha : ∀ y, y < height (remove_white_background k₁ k₂ img) →
      ∀ x, x < width (remove_white_background k₁ k₂ img) →
      alphaAt (remove_white_background k₁ k₂ img) y x ≤ 10) :
    crop_sprite_tight k₁ k₂ img = remove_white_background k₁ k₂ img := by
  have hrows : ((List.range (height (remove_white_background k₁ k₂ img))).any
      (cropRowsAny (remove_white_background k₁ k₂ img))) = false := by
    rw [List.any_eq_false]
    intro y hy
    rw [List.mem_range] at hy
    rw [Bool.not_eq_true]
    unfold cropRowsAny
    rw [List.any_eq_false]
    intro x hx
    rw [List.mem_range] at hx
    rw [Bool.not_eq_true]
    exact decide_eq_false (Nat.not_lt.2 (halpha y hy x hx))
  unfold crop_sprite_tight
  rw [if_neg]
  rw [hrows]
  simp

/-- Lemma for the C1 counterexample: the definite-background mask of the
all-white `c1img` covers every pixel. -/
theorem c1_definiteAt : ∀ y, y < 2 → ∀ x, x < 2 →
    definiteAt c1img y x = 1 := by decide

theorem c1_alphaChan : ∀ y, y < 2 → ∀ x, x < 2 →
    alphaChan c1img y x = 0 := by
  intro y hy x hx
  unfold alphaChan
  rw [if_pos (c1_definiteAt y hy x hx)]

theorem c1_blurred : ∀ y, y < 2 → ∀ x, x < 2 →
    alphaBlurred c1img (0, 1) y x = 0 := by
  intro y hy x hx
  unfold alphaBlurred gaussianBlur3 blurV blurH
  simp only [zero_mul, one_mul, zero_add, add_zero]
  exact c1_alphaChan y hy x hx

theorem c1_U8 : ∀ y, y < 2 → ∀ x, x < 2 →
    alphaU8 c1img (0, 1) y x = 0 := by
  intro y hy x hx
  unfold alphaU8
  rw [c1_blurred y hy x hx, zero_mul]
  unfold floatToU8
  norm_num

theorem c1_dilate : ∀ y, y < 2 → ∀ x, x < 2 →
    dilate2x2 (height c1img) (width c1img) (alphaU8 c1img (0, 1)) y x = 0 := by
  intro y hy x hx
  unfold dilate2x2
  apply foldr_max_zero
  intro v hv
  obtain ⟨ya, xa, hya, hxa, rfl⟩ := window2x2_mem hv
  exact c1_U8 ya hya xa hxa

theorem foldr_min_le_mem {v : ℕ} :
    ∀ l : List ℕ, v ∈ l → l.foldr min 255 ≤ v := by
  intro l
  induction l with
  | nil => intro hv; cases hv
  | cons u us ih =>
    intro hv
    rcases List.mem_cons.1 hv with h | h
    · subst h; exact min_le_left _ _
    · exact (min_le_right _ _).trans (ih h)

theorem c1_closed : ∀ y, y < 2 → ∀ x, x < 2 →
    alphaU8Closed c1img (0, 1) y x = 0 := by
  intro y hy x hx
  unfold alphaU8Closed close2x2 erode2x2
  have hmem := window2x2_self_mem (height c1img) (width c1img)
    (dilate2x2 (height c1img) (width c1img) (alphaU8 c1img (0, 1))) hy hx
  rw [c1_dilate y hy x hx] at hmem
  exact Nat.le_antisymm (foldr_min_le_mem _ hmem) (Nat.zero_le _)

theorem c1_alphaFinal : ∀ y, y < 2 → ∀ x, x < 2 →
    alphaFinal c1img (0, 1) (0, 1) y x = 0 := by
  intro y hy x hx
  unfold alphaFinal gaussianBlurU8 gaussianBlur3 blurV blurH
  simp only [zero_mul, one_mul, zero_add, add_zero]
  rw [c1_closed y hy x hx]
  unfold satRoundU8
  norm_num

theorem c1_alphaAt_rwb : ∀ y, y < 2 → ∀ x, x < 2 →
    alphaAt (remove_white_background (0, 1) (0, 1) c1img) y x = 0 := by
  intro y hy x hx
  unfold alphaAt
  rw [remove_white_background, if_neg (by decide),
    pixAt_buildImage (height c1img) (width c1img) _ hy hx]
  exact c1_alphaFinal y hy x hx

/-- C1 (counterexample): on `c1img` (with concrete normalized kernels) no
pixel's alpha exceeds 10 after background removal, yet `crop_sprite_tight`
does not return the input buffer: background removal changed the alpha
channel, and that changed buffer is what is returned. -/
theorem C1_counterexample :
    (∀ y, y < height (remove_white_background ((0 : ℚ), (1 : ℚ)) (0, 1) c1img) →
      ∀ x, x < width (remove_white_background ((0 : ℚ), (1 : ℚ)) (0, 1) c1img) →
      alphaAt (remove_white_background ((0 : ℚ), (1 : ℚ)) (0, 1) c1img) y x ≤ 10) ∧
    crop_sprite_tight ((0 : ℚ), (1 : ℚ)) (0, 1) c1img ≠ c1img := by
  have hh : height (remove_white_background ((0 : ℚ), (1 : ℚ)) (0, 1) c1img)
      = 2 := rwb_height _ _ _
  have hw : width (remove_white_background ((0 : ℚ), (1 : ℚ)) (0, 1) c1img)
      = 2 := rwb_width _ _ _
  have halpha : ∀ y, y < height (remove_white_background ((0 : ℚ), (1 : ℚ))
      (0, 1) c1img) →
      ∀ x, x < width (remove_white_background ((0 : ℚ), (1 : ℚ)) (0, 1) c1img) →
      alphaAt (remove_white_background ((0 : ℚ), (1 : ℚ)) (0, 1) c1img) y x
        ≤ 10 := by
    intro y hy x hx
    rw [hh] at hy
    rw [hw] at hx
    rw [c1_alphaAt_rwb y hy x hx]
    omega
  refine ⟨halpha, ?_⟩
  intro hcrop
  have heq := crop_eq_of_no_visible ((0 : ℚ), (1 : ℚ)) (0, 1) c1img halpha
  rw [hcrop] at heq
  have h00 := c1_alphaAt_rwb 0 (by omega) 0 (by omega)
  rw [← heq] at h00
  have : alphaAt c1img 0 0 = 255 := by decide
  rw [this] at h00
  cases h00

/-- C1 (amended): if after background removal no pixel's alpha exceeds the
visibility threshold 10, `crop_sprite_tight` returns the
background-removed buffer exactly — same dimensions and same pixel values
as that buffer, with the dimensions of the original input (never a
zero-size result). -/
theorem C1_crop_totality (k₁ k₂ : ℚ × ℚ) (img : Image)
    (halpha : ∀ y, y < height (remove_white_background k₁ k₂ img) →
      ∀ x, x < width (remove_white_background k₁ k₂ img) →
      alphaAt (remove_white_background k₁ k₂ img) y x ≤ 10) :
    crop_sprite_tight k₁ k₂ img = remove_white_background k₁ k₂ img ∧
    height (crop_sprite_tight k₁ k₂ img) = height img ∧
    width (crop_sprite_tight k₁ k₂ img) = width img := by
  have heq := crop_eq_of_no_visible k₁ k₂ img halpha
  refine ⟨heq, ?_, ?_⟩
  · rw [heq]; exact rwb_height k₁ k₂ img
  · rw [heq]; exact rwb_width k₁ k₂ img

/-- Witness for C1 (amended) at a 1×1 fully transparent buffer. -/
theorem C1_crop_totality_witness :
    (∀ y, y < height (remove_white_background ((0 : ℚ), (1 : ℚ)) (0, 1)
        [[(⟨0, 0, 0, 0⟩ : Pixel)]]) →
      ∀ x, x < width (remove_white_background ((0 : ℚ), (1 : ℚ)) (0, 1)
        [[(⟨0, 0, 0, 0⟩ : Pixel)]]) →
      alphaAt (remove_white_background ((0 : ℚ), (1 : ℚ)) (0, 1)
        [[(⟨0, 0, 0, 0⟩ : Pixel)]]) y x ≤ 10) ∧
    crop_sprite_tight ((0 : ℚ), (1 : ℚ)) (0, 1) [[(⟨0, 0, 0, 0⟩ : Pixel)]] =
      remove_white_background ((0 : ℚ), (1 : ℚ)) (0, 1)
        [[(⟨0, 0, 0, 0⟩ : Pixel)]] :=
  ⟨by decide, (C1_crop_totality ((0 : ℚ), (1 : ℚ)) (0, 1) _ (by decide)).1⟩

/-- Binary mask value of `cv2.threshold(alpha, 10, 255, cv2.THRESH_BINARY)`
(line 286): 255 where alpha exceeds 10, else 0. -/
def binaryAt (proc : Image) (p : ℕ × ℕ) : ℕ :=
  if 10 < alphaAt proc p.1 p.2 then 255 else 0

/-- Foreground test of the connected-component labeling: nonzero binary
mask value. -/
def fgB (proc : Image) (p : ℕ × ℕ) : Bool := decide (binaryAt proc p ≠ 0)

/-- Initial provisional labels: row-major pixel index. -/
def labelInit (w : ℕ) : ℕ × ℕ → ℕ := fun p => p.1 * w + p.2

/-- One propagation step of the 8-connected component labeling
(`cv2.connectedComponentsWithStats(binary, connectivity=8)`, line 289):
every pixel takes the minimum label among itself and its foreground
8-neighbors. -/
def ccStep (proc : Image) (L : ℕ × ℕ → ℕ) : ℕ × ℕ → ℕ := fun p =>
  (((posList (height proc) (width proc)).filter fun q =>
      fgB proc q && decide (adj8 q p)).map L).foldr min (L p)

/-- Component labels after `h*w` propagation rounds (enough to stabilize:
each foreground pixel ends with the least row-major index reachable in its
8-connected component). -/
def ccLabels (proc : Image) : ℕ × ℕ → ℕ :=
  (ccStep proc)^[height proc * width proc] (labelInit (width proc))

/-- The distinct component labels of foreground pixels, in row-major order
of first occurrence (the claims herein do not depend on the numbering). -/
def ccLabelVals (proc : Image) : List ℕ :=
  (((posList (height proc) (width proc)).filter (fgB proc)).map
    (ccLabels proc)).dedup

/-- Pixels carrying component label `l`. -/
def ccPixels (proc : Image) (l : ℕ) : List (ℕ × ℕ) :=
  (posList (height proc) (width proc)).filter fun p =>
    fgB proc p && decide (ccLabels proc p = l)

/-- Minimum of a list of naturals (0 on the empty list, never used so). -/
def minN : List ℕ → ℕ
  | [] => 0
  | [v] => v
  | v :: v' :: vs => min v (minN (v' :: vs))

/-- Maximum of a list of naturals (0 on the empty list, never used so). -/
def maxN : List ℕ → ℕ
  | [] => 0
  | [v] => v
  | v :: v' :: vs => max v (maxN (v' :: vs))

/-- One stats row of `cv2.connectedComponentsWithStats`:
`CC_STAT_LEFT`, `CC_STAT_TOP`, `CC_STAT_WIDTH`, `CC_STAT_HEIGHT`,
`CC_STAT_AREA` (line 293). -/
structure CCStat where
  x : ℕ
  y : ℕ
  w : ℕ
  h : ℕ
  area : ℕ
deriving DecidableEq

/-- Stats of the component labeled `l`: bounding box extrema of its pixels
and its pixel count. -/
def ccStatOf (proc : Image) (l : ℕ) : CCStat :=
  { x := minN ((ccPixels proc l).map Prod.snd)
    y := minN ((ccPixels proc l).map Prod.fst)
    w := maxN ((ccPixels proc l).map Prod.snd) -
      minN ((ccPixels proc l).map Prod.snd) + 1
    h := maxN ((ccPixels proc l).map Prod.fst) -
      minN ((ccPixels proc l).map Prod.fst) + 1
    area := (ccPixels proc l).length }

/-- The per-component stats table (labels 1..num_labels-1 of the source;
the background row 0 is not part of the foreground label list). -/
def ccStats (proc : Image) : List CCStat :=
  (ccLabelVals proc).map (ccStatOf proc)

/-- Sort key relation of line 299 (`sprites.sort(key=lambda box: box[0])`):
ascending bounding-box x. -/
def boxLe (b₁ b₂ : ℕ × ℕ × ℕ × ℕ) : Prop := b₁.1 ≤ b₂.1

instance : DecidableRel boxLe := fun b₁ b₂ => Nat.decLe b₁.1 b₂.1

instance : IsTotal (ℕ × ℕ × ℕ × ℕ) boxLe :=
  ⟨fun b₁ b₂ => Nat.le_total b₁.1 b₂.1⟩

instance : IsTrans (ℕ × ℕ × ℕ × ℕ) boxLe :=
  ⟨fun _ _ _ h₁ h₂ => Nat.le_trans h₁ h₂⟩

/-- Embedding of `StoryPoseGenerator.find_sprites_in_sheet`
(lines 264-301): remove the white background, threshold the alpha channel
at 10, label 8-connected components, keep the bounding boxes `(x, y, w, h)`
of components with pixel area at least `minArea`, and sort them by
ascending x (a stable sort, as Python's). -/
def find_sprites_in_sheet (k₁ k₂ : ℚ × ℚ) (img : Image) (minArea : ℕ) :
    List (ℕ × ℕ × ℕ × ℕ) :=
  List.insertionSort boxLe
    (((ccStats (remove_white_background k₁ k₂ img)).filter
        (fun s => minArea ≤ s.area)).map fun s => (s.x, s.y, s.w, s.h))

/-- Witness sheet: a 1×3 buffer already carrying transparency (so
background removal is the identity) with two visible 1-pixel components. -/
def wSheet : Image :=
  [[⟨0, 0, 0, 255⟩, ⟨0, 0, 0, 0⟩, ⟨0, 0, 0, 255⟩]]

/-- C5: the bounding boxes returned by `find_sprites_in_sheet` are sorted
by ascending x: for indices i < j, box i's x is at most box j's x,
independent of the component label numbering. -/
theorem C5_sorted_by_x (k₁ k₂ : ℚ × ℚ) (img : Image) (minArea : ℕ)
    (i j : ℕ) (hij : i < j)
    (hj : j < (find_sprites_in_sheet k₁ k₂ img minArea).length) :
    ((find_sprites_in_sheet k₁ k₂ img minArea).getD i (0, 0, 0, 0)).1 ≤
    ((find_sprites_in_sheet k₁ k₂ img minArea).getD j (0, 0, 0, 0)).1 := by
  have hi : i < (find_sprites_in_sheet k₁ k₂ img minArea).length :=
    lt_trans hij hj
  have hs : (find_sprites_in_sheet k₁ k₂ img minArea).Sorted boxLe := by
    unfold find_sprites_in_sheet
    exact List.sorted_insertionSort boxLe _
  rw [List.getD_eq_getElem _ _ hi, List.getD_eq_getElem _ _ hj]
  exact hs.rel_get_of_lt (by simpa using hij)

/-- Witness for C5 on the concrete two-sprite sheet. -/
theorem C5_sorted_by_x_witness :
    (0 : ℕ) < 1 ∧ 1 < (find_sprites_in_sheet (0, 1) (0, 1) wSheet 1).length ∧
    ((find_sprites_in_sheet (0, 1) (0, 1) wSheet 1).getD 0 (0, 0, 0, 0)).1 ≤
    ((find_sprites_in_sheet (0, 1) (0, 1) wSheet 1).getD 1 (0, 0, 0, 0)).1 :=
  ⟨by decide, by decide,
    C5_sorted_by_x (0, 1) (0, 1) wSheet 1 0 1 (by decide) (by decide)⟩

theorem length_filter_imp {α : Type} (p q : α → Bool)
    (himp : ∀ a, q a = true → p a = true) :
    ∀ l : List α, (l.filter q).length ≤ (l.filter p).length := by
  intro l
  induction l with
  | nil => simp
  | cons a as ih =>
    by_cases hq : q a = true
    · rw [List.filter_cons_of_pos hq, List.filter_cons_of_pos (himp a hq)]
      simpa using ih
    · rw [List.filter_cons_of_neg (by simpa using hq)]
      by_cases hp : p a = true
      · rw [List.filter_cons_of_pos hp]
        exact Nat.le_succ_of_le ih
      · rw [List.filter_cons_of_neg (by simpa using hp)]
        exact ih

/-- C6: raising the minimum-area threshold never increases the number of
regions returned, and every returned region comes from a connected
component whose pixel area is at least the threshold. -/
theorem C6_min_area_monotone (k₁ k₂ : ℚ × ℚ) (img : Image) (t₁ t₂ : ℕ)
    (h12 : t₁ ≤ t₂) :
    (find_sprites_in_sheet k₁ k₂ img t₂).length ≤
      (find_sprites_in_sheet k₁ k₂ img t₁).length ∧
    ∀ b ∈ find_sprites_in_sheet k₁ k₂ img t₂,
      ∃ s ∈ ccStats (remove_white_background k₁ k₂ img),
        t₂ ≤ s.area ∧ b = (s.x, s.y, s.w, s.h) := by
  constructor
  · unfold find_sprites_in_sheet
    rw [(List.perm_insertionSort boxLe _).length_eq,
      (List.perm_insertionSort boxLe _).length_eq]
    rw [List.length_map, List.length_map]
    exact length_filter_imp _ _
      (fun s hs => by
        rw [decide_eq_true_eq] at hs ⊢
        omega)
      (ccStats (remove_white_background k₁ k₂ img))
  · intro b hb
    unfold find_sprites_in_sheet at hb
    have hb' := (List.perm_insertionSort boxLe _).mem_iff.1 hb
    rw [List.mem_map] at hb'
    obtain ⟨s, hs, rfl⟩ := hb'
    rw [List.mem_filter] at hs
    exact ⟨s, hs.1, by simpa using hs.2, rfl⟩

/-- Witness for C6 on the concrete two-sprite sheet. -/
theorem C6_min_area_monotone_witness :
    (1 : ℕ) ≤ 1 ∧
    (find_sprites_in_sheet (0, 1) (0, 1) wSheet 1).length ≤
      (find_sprites_in_sheet (0, 1) (0, 1) wSheet 1).length ∧
    ∀ b ∈ find_sprites_in_sheet (0, 1) (0, 1) wSheet 1,
      ∃ s ∈ ccStats (remove_white_background (0, 1) (0, 1) wSheet),
        1 ≤ s.area ∧ b = (s.x, s.y, s.w, s.h) :=
  ⟨by decide, (C6_min_area_monotone (0, 1) (0, 1) wSheet 1 1 (by decide)).1,
    (C6_min_area_monotone (0, 1) (0, 1) wSheet 1 1 (by decide)).2⟩

theorem minN_le {v : ℕ} : ∀ l : List ℕ, v ∈ l → minN l ≤ v := by
  intro l
  induction l with
  | nil => intro hv; cases hv
  | cons u us ih =>
    intro hv
    cases us with
    | nil =>
      rcases List.mem_cons.1 hv with h | h
      · subst h; exact le_refl _
      · cases h
    | cons u' us' =>
      rcases List.mem_cons.1 hv with h | h
      · subst h; exact min_le_left _ _
      · exact (min_le_right _ _).trans (ih h)

theorem le_maxN {v : ℕ} : ∀ l : List ℕ, v ∈ l → v ≤ maxN l := by
  intro l
  induction l with
  | nil => intro hv; cases hv
  | cons u us ih =>
    intro hv
    cases us with
    | nil =>
      rcases List.mem_cons.1 hv with h | h
      · subst h; exact le_refl _
      · cases h
    | cons u' us' =>
      rcases List.mem_cons.1 hv with h | h
      · subst h; exact le_max_left _ _
      · exact (ih h).trans (le_max_right _ _)

theorem maxN_mem : ∀ l : List ℕ, l ≠ [] → maxN l ∈ l := by
  intro l
  induction l with
  | nil => intro h; exact absurd rfl h
  | cons u us ih =>
    intro _
    cases us with
    | nil => exact List.mem_cons_self _ _
    | cons u' us' =>
      rcases le_total u (maxN (u' :: us')) with h | h
      · rw [show maxN (u :: u' :: us') = max u (maxN (u' :: us')) from rfl,
          max_eq_right h]
        exact List.mem_cons_of_mem _ (ih (by simp))
      · rw [show maxN (u :: u' :: us') = max u (maxN (u' :: us')) from rfl,
          max_eq_left h]
        exact List.mem_cons_self _ _

/-- Every returned component label has at least one pixel. -/
theorem ccPixels_ne_nil {proc : Image} {l : ℕ}
    (hl : l ∈ ccLabelVals proc) : ccPixels proc l ≠ [] := by
  unfold ccLabelVals at hl
  rw [List.mem_dedup, List.mem_map] at hl
  obtain ⟨p, hp, hlab⟩ := hl
  rw [List.mem_filter] at hp
  have hmem : p ∈ ccPixels proc l := by
    unfold ccPixels
    rw [List.mem_filter]
    refine ⟨hp.1, ?_⟩
    rw [Bool.and_eq_true]
    exact ⟨hp.2, by simpa using hlab⟩
  intro hnil
  rw [hnil] at hmem
  cases hmem

/-- Pixels of a component lie inside the grid. -/
theorem ccPixels_bounds {proc : Image} {l : ℕ} {p : ℕ × ℕ}
    (hp : p ∈ ccPixels proc l) : p.1 < height proc ∧ p.2 < width proc := by
  unfold ccPixels at hp
  rw [List.mem_filter] at hp
  exact mem_posList.1 hp.1

/-- Bounding-box invariant of a nonempty component's stats row. -/
theorem ccStatOf_invariant {proc : Image} {l : ℕ}
    (hl : l ∈ ccLabelVals proc) :
    (ccStatOf proc l).x + (ccStatOf proc l).w ≤ width proc ∧
    (ccStatOf proc l).y + (ccStatOf proc l).h ≤ height proc ∧
    0 < (ccStatOf proc l).w ∧ 0 < (ccStatOf proc l).h := by
  have hne := ccPixels_ne_nil hl
  have hne2 : (ccPixels proc l).map Prod.snd ≠ [] := by
    intro h
    exact hne (List.map_eq_nil_iff.1 h)
  have hne1 : (ccPixels proc l).map Prod.fst ≠ [] := by
    intro h
    exact hne (List.map_eq_nil_iff.1 h)
  have hxlt : maxN ((ccPixels proc l).map Prod.snd) < width proc := by
    have hmem := maxN_mem _ hne2
    rw [List.mem_map] at hmem
    obtain ⟨p, hp, hpe⟩ := hmem
    rw [← hpe]
    exact (ccPixels_bounds hp).2
  have hylt : maxN ((ccPixels proc l).map Prod.fst) < height proc := by
    have hmem := maxN_mem _ hne1
    rw [List.mem_map] at hmem
    obtain ⟨p, hp, hpe⟩ := hmem
    rw [← hpe]
    exact (ccPixels_bounds hp).1
  have hxmin : minN ((ccPixels proc l).map Prod.snd) ≤
      maxN ((ccPixels proc l).map Prod.snd) := by
    have hm := maxN_mem _ hne2
    exact minN_le _ hm
  have hymin : minN ((ccPixels proc l).map Prod.fst) ≤
      maxN ((ccPixels proc l).map Prod.fst) := by
    have hm := maxN_mem _ hne1
    exact minN_le _ hm
  unfold ccStatOf
  refine ⟨?_, ?_, ?_, ?_⟩ <;> simp only [] <;> omega

/-- C9: every bounding box `(x, y, w, h)` returned by
`find_sprites_in_sheet` on a width-W, height-H buffer satisfies the
BoundingBox invariant: `x ≥ 0`, `y ≥ 0`, `x + w ≤ W`, `y + h ≤ H`,
`w > 0`, `h > 0`. -/
theorem C9_bbox_invariant (k₁ k₂ : ℚ × ℚ) (img : Image) (minArea : ℕ)
    (hwf : WellFormed img) :
    ∀ b ∈ find_sprites_in_sheet k₁ k₂ img minArea,
      0 ≤ b.1 ∧ 0 ≤ b.2.1 ∧ b.1 + b.2.2.1 ≤ width img ∧
      b.2.1 + b.2.2.2 ≤ height img ∧ 0 < b.2.2.1 ∧ 0 < b.2.2.2 := by
  intro b hb
  unfold find_sprites_in_sheet at hb
  have hb' := (List.perm_insertionSort boxLe _).mem_iff.1 hb
  rw [List.mem_map] at hb'
  obtain ⟨s, hs, rfl⟩ := hb'
  rw [List.mem_filter] at hs
  have hsm := hs.1
  unfold ccStats at hsm
  rw [List.mem_map] at hsm
  obtain ⟨l, hl, rfl⟩ := hsm
  obtain ⟨hxw, hyh, hw, hh⟩ := ccStatOf_invariant hl
  rw [rwb_width k₁ k₂ img] at hxw
  rw [rwb_height k₁ k₂ img] at hyh
  exact ⟨Nat.zero_le _, Nat.zero_le _, hxw, hyh, hw, hh⟩

/-- Witness for C9 on the concrete two-sprite sheet. -/
theorem C9_bbox_invariant_witness :
    WellFormed wSheet ∧
    ∀ b ∈ find_sprites_in_sheet (0, 1) (0, 1) wSheet 1,
      0 ≤ b.1 ∧ 0 ≤ b.2.1 ∧ b.1 + b.2.2.1 ≤ width wSheet ∧
      b.2.1 + b.2.2.2 ≤ height wSheet ∧ 0 < b.2.2.1 ∧ 0 < b.2.2.2 :=
  ⟨by decide, C9_bbox_invariant (0, 1) (0, 1) wSheet 1 (by decide)⟩
